import Mathlib

/-!
# Shallow embedding of the `ml_investment` feature pipeline

This file embeds, in Lean 4, the parts of the repository that the
specification talks about:

* `calc_series_stats` (src/features.py): descriptive statistics of a
  numeric series and of its first differences, computed with numpy
  reductions.  Numeric values are modelled as exact rationals standing
  for IEEE float64 contents; the float64 `nan` is a distinguished
  constructor.  We model the float-dtype path of numpy (the quarterly
  JSON data holds floats and nulls): `np.max(xs, initial=np.nan)` folds
  `np.maximum`, which propagates NaN, starting from the NaN initial.
* `QuarterlyFeatures._single_ticker` / `_calc_series_feats`
  (src/features.py): rolling-window statistics per back-quarter offset.
  The quarterly loader is IO; the embedding takes the loaded record
  list as an argument.
* `FeatureMerger.calculate`, `BaseCompanyFeatures.calculate`
  (src/features.py): pandas left merges and label encoding.  DataFrames
  are a column-name list plus rows of cell lists; `pd.merge(..., how='left')`
  keeps every left row in order, replicates a left row once per matching
  right row, and fills the right side with nulls when nothing matches.
  Non-key column names are assumed disjoint (no `_x`/`_y` suffixing is
  modelled; none of the merges in the repository overlap).
* `DailyBarsData.load` (src/ml_investment/data_loaders/daily_bars.py):
  the filesystem is a partial map from ticker to parsed csv rows.
-/

/-- A pandas/numpy cell value: missing (NaN/None), a float64 number
(modelled exactly as a rational), or a string. -/
inductive Val where
  | null : Val
  | num : ℚ → Val
  | str : String → Val
deriving DecidableEq, Repr

/-- An IEEE float64 result of a numpy reduction: either NaN, an exact
value, or the square root of an exact nonnegative value (produced by
`np.std`; kept symbolic since nothing downstream computes with it). -/
inductive NpFloat where
  | nan : NpFloat
  | val : ℚ → NpFloat
  | sqrtv : ℚ → NpFloat
deriving DecidableEq, Repr

/-- `np.diff`: consecutive differences `xs[i+1] - xs[i]`. -/
def npDiff (xs : List ℚ) : List ℚ :=
  List.zipWith (fun b a => b - a) xs.tail xs

/-- `np.mean`: arithmetic mean; NaN on an empty input. -/
def npMean (xs : List ℚ) : NpFloat :=
  if xs.isEmpty then NpFloat.nan else NpFloat.val (xs.sum / xs.length)

/-- `np.median`: middle element of the sorted list, or the average of the
two middle elements; NaN on an empty input. -/
def npMedian (xs : List ℚ) : NpFloat :=
  if xs.isEmpty then NpFloat.nan
  else
    let s := xs.insertionSort (fun a b => a ≤ b)
    let n := s.length
    if n % 2 = 1 then NpFloat.val (s.getD (n / 2) 0)
    else NpFloat.val ((s.getD (n / 2 - 1) 0 + s.getD (n / 2) 0) / 2)

/-- `np.std`: population standard deviation, the square root of the mean
squared deviation; NaN on an empty input. -/
def npStd (xs : List ℚ) : NpFloat :=
  if xs.isEmpty then NpFloat.nan
  else
    let m : ℚ := xs.sum / xs.length
    NpFloat.sqrtv ((xs.map (fun x => (x - m) ^ 2)).sum / xs.length)

/-- `np.max(xs, initial=init)` on a float64 array: `np.maximum.reduce`
started from `init`.  `np.maximum` propagates NaN, so a NaN accumulator
absorbs everything. -/
def npMaxInitial (init : NpFloat) (xs : List ℚ) : NpFloat :=
  xs.foldl
    (fun acc x =>
      match acc with
      | NpFloat.nan => NpFloat.nan
      | NpFloat.val a => NpFloat.val (max a x)
      | s => s)
    init

/-- `np.min(xs, initial=init)` on a float64 array, NaN-propagating. -/
def npMinInitial (init : NpFloat) (xs : List ℚ) : NpFloat :=
  xs.foldl
    (fun acc x =>
      match acc with
      | NpFloat.nan => NpFloat.nan
      | NpFloat.val a => NpFloat.val (min a x)
      | s => s)
    init

/-- `calc_series_stats` (src/features.py).  The input series may contain
Python `None` entries (`Option.none`), which `series[series != None]`
filters out; ten named statistics are returned, five over the filtered
series and five over its `np.diff`. -/
def calcSeriesStats (series : List (Option ℚ)) (namePrefix : String) :
    List (String × NpFloat) :=
  let s := series.filterMap id
  let diffArr := npDiff s
  [ (namePrefix ++ "_mean", npMean s),
    (namePrefix ++ "_median", npMedian s),
    (namePrefix ++ "_max", npMaxInitial NpFloat.nan s),
    (namePrefix ++ "_min", npMinInitial NpFloat.nan s),
    (namePrefix ++ "_std", npStd s),
    (namePrefix ++ "_diff_mean", npMean diffArr),
    (namePrefix ++ "_diff_median", npMedian diffArr),
    (namePrefix ++ "_diff_max", npMaxInitial NpFloat.nan diffArr),
    (namePrefix ++ "_diff_min", npMinInitial NpFloat.nan diffArr),
    (namePrefix ++ "_diff_std", npStd diffArr) ]

example : (calcSeriesStats [some 10, some 12, some 9, some 15] "p").lookup "p_mean"
    = some (npMean [10, 12, 9, 15]) := rfl

example : npMean [10, 12, 9, 15] = NpFloat.val (23 / 2) := by
  simp [npMean]; norm_num

example : (calcSeriesStats [some 10, some 12, some 9, some 15] "p").lookup "p_max"
    = some NpFloat.nan := rfl

example : (calcSeriesStats [] "p").lookup "p_max" = some NpFloat.nan := rfl

/-! ## Quarterly rolling-window features (`QuarterlyFeatures`) -/

/-- One quarterly record from the cf1 JSON data: a report `date` plus the
fundamental columns (`x[col]`; a column's value may be a JSON null). -/
structure QRecord where
  date : String
  fields : String → Option ℚ

instance : Inhabited QRecord := ⟨⟨"", fun _ => none⟩⟩

/-- One output row of `QuarterlyFeatures._single_ticker`: the `ticker` and
`date` entries plus the computed feature columns. -/
structure FeatRow where
  ticker : String
  date : String
  feats : List (String × NpFloat)

instance : Inhabited FeatRow := ⟨⟨"", "", []⟩⟩

/-- `QuarterlyFeatures._calc_series_feats` (src/features.py): for every
window size and column, feed the first `quarter_cnt` records of the
window, oldest first (`data[:quarter_cnt][::-1]`), to `calc_series_stats`
with prefix `quarter{cnt}_{col}`.  The Python dict accumulation is
modelled as list concatenation (the prefixes keep keys disjoint). -/
def calcSeriesFeats (quarterCounts : List ℕ) (columns : List String)
    (data : List QRecord) : List (String × NpFloat) :=
  quarterCounts.flatMap fun quarterCnt =>
    columns.flatMap fun col =>
      let series := ((data.take quarterCnt).reverse).map (fun x => x.fields col)
      calcSeriesStats series ("quarter" ++ toString quarterCnt ++ "_" ++ col)

/-- `QuarterlyFeatures._single_ticker` (src/features.py), taking the list
returned by `load_quarterly_data_cf1` as an argument: one row per
back-quarter offset below `min(max_back_quarter, len(quarterly_data) - 1)`,
carrying the ticker and the date of `quarterly_data[back_quarter:][0]`. -/
def singleTicker (maxBackQuarter : ℕ) (quarterCounts : List ℕ)
    (columns : List String) (ticker : String)
    (quarterlyData : List QRecord) : List FeatRow :=
  let mbq := min maxBackQuarter (quarterlyData.length - 1)
  (List.range mbq).map fun backQuarter =>
    let currData := quarterlyData.drop backQuarter
    { ticker := ticker
      date := (currData.headD default).date
      feats := calcSeriesFeats quarterCounts columns currData }

/-! ## DataFrames and `pd.merge(..., how='left')` -/

/-- A pandas DataFrame: named columns and rows of cells, each row aligned
with `cols`. -/
structure DataFrame where
  cols : List String
  rows : List (List Val)
deriving DecidableEq, Repr

/-- Read the cell of column `c` in a row of `df` (null when absent). -/
def getCell (df : DataFrame) (row : List Val) (c : String) : Val :=
  match df.cols.findIdx? (fun c0 => c0 == c) with
  | some i => row.getD i Val.null
  | none => Val.null

/-- The key tuple of a row under the join columns `on` (here `onCols`). -/
def keyTuple (df : DataFrame) (onCols : List String) (row : List Val) : List Val :=
  onCols.map (getCell df row)

/-- `pd.merge(l, r, on=on, how='left')` (with non-key column names
disjoint, as everywhere in the repository): every left row in order,
replicated once per matching right row, right non-key cells appended;
nulls appended when no right row matches. -/
def leftMerge (l r : DataFrame) (onCols : List String) : DataFrame :=
  let rKeep := r.cols.filter (fun c => ¬ onCols.contains c)
  { cols := l.cols ++ rKeep
    rows := l.rows.flatMap fun lr =>
      match r.rows.filter (fun rr => keyTuple l onCols lr = keyTuple r onCols rr) with
      | [] => [lr ++ rKeep.map (fun _ => Val.null)]
      | ms => ms.map fun rr => lr ++ rKeep.map (getCell r rr) }

example :
    (leftMerge ⟨["k", "a"], [[Val.num 1, Val.num 2], [Val.num 7, Val.num 8]]⟩
      ⟨["k", "b"], [[Val.num 1, Val.num 3]]⟩ ["k"]).rows
    = [[Val.num 1, Val.num 2, Val.num 3], [Val.num 7, Val.num 8, Val.null]] := by
  decide

/-- The store-level embedding of the `pd.merge` call inside
`FeatureMerger.calculate` (src/features.py): the live frames form a pool,
`pd.merge` reads the frames at positions `i` and `j`, allocates the joined
frame at a fresh position and returns its index.  No existing frame is
written. -/
def featureMergerStep (store : List DataFrame) (i j : ℕ)
    (onCols : List String) : List DataFrame × ℕ :=
  (store ++ [leftMerge (store.getD i ⟨[], []⟩) (store.getD j ⟨[], []⟩) onCols],
   store.length)

/-! ## `DailyBarsData` (src/ml_investment/data_loaders/daily_bars.py) -/

/-- One parsed csv row of a daily-bars file: the `Date` column plus the
remaining columns. -/
structure Bar where
  Date : String
  vals : List (String × Val)
deriving DecidableEq, Repr

/-- `DailyBarsData.__init__`: a `days_count` of `None` becomes the
effectively unbounded default `int(1e5)`. -/
def dailyBarsDaysCount (daysCount : Option ℕ) : ℕ :=
  daysCount.getD 100000

/-- The loop body of `DailyBarsData.load` for one ticker: `none` when
`{data_path}/{ticker}.csv` is missing, otherwise the parsed rows
reversed and capped (`[::-1][:days_count]`) and tagged with the ticker
column. -/
def dailyBlock (files : String → Option (List Bar)) (daysCount : ℕ)
    (ticker : String) : Option (List (String × Bar)) :=
  (files ticker).map fun bars =>
    (bars.reverse.take daysCount).map (fun b => (ticker, b))

/-- `DailyBarsData.load`: accumulate the per-ticker frames over the
requested index, skipping missing files; with an empty accumulator the
method returns `None` (`none`) instead of a frame, otherwise the
concatenation. -/
def dailyBarsLoad (files : String → Option (List Bar)) (daysCount : ℕ)
    (index : List String) : Option (List (String × Bar)) :=
  let result := index.filterMap (dailyBlock files daysCount)
  if result.isEmpty then none else some result.flatten

/-! ## `BaseCompanyFeatures` (src/features.py) -/

/-- Column selection `df[cols]` on a DataFrame. -/
def restrictCols (df : DataFrame) (cs : List String) : DataFrame :=
  { cols := cs, rows := df.rows.map (fun r => cs.map (getCell df r)) }

/-- The values of one column, top to bottom. -/
def getColumn (df : DataFrame) (c : String) : List Val :=
  df.rows.map (fun r => getCell df r c)

/-- Overwrite one existing column with the given values, positionally. -/
def setColumn (df : DataFrame) (c : String) (vs : List Val) : DataFrame :=
  match df.cols.findIdx? (fun c0 => c0 == c) with
  | some i => { cols := df.cols, rows := List.zipWith (fun r v => r.set i v) df.rows vs }
  | none => df

/-- `.fillna('None')` on one cell followed by stringification for the
label encoder (the category columns hold strings or NaN). -/
def fillnaNone : Val → String
  | Val.str s => s
  | Val.null => "None"
  | Val.num q => toString q

/-- Code-point comparison of strings (the order `np.unique` sorts by). -/
def charListLe : List Char → List Char → Bool
  | [], _ => true
  | _ :: _, [] => false
  | a :: as, b :: bs =>
    if a.toNat < b.toNat then true
    else if b.toNat < a.toNat then false
    else charListLe as bs

/-- Insert into a list sorted by `charListLe`. -/
def insertSorted (x : String) : List String → List String
  | [] => [x]
  | y :: ys => if charListLe x.data y.data then x :: y :: ys else y :: insertSorted x ys

/-- Insertion sort by `charListLe` (extensionally, the sorted order of
`np.unique`). -/
def sortStrings : List String → List String
  | [] => []
  | x :: xs => insertSorted x (sortStrings xs)

/-- `sklearn.LabelEncoder.fit_transform`: classes are the sorted distinct
values of the input, and each element is mapped to the index of its class. -/
def labelFitTransform (xs : List String) : List ℕ :=
  let classes := sortStrings xs.dedup
  xs.map fun x => classes.findIdx (fun c => c == x)

/-- One iteration of the encoding loop in `BaseCompanyFeatures.calculate`:
`result[col] = le.fit_transform(result[col].fillna('None'))`. -/
def encodeStep (df : DataFrame) (col : String) : DataFrame :=
  setColumn df col
    ((labelFitTransform ((getColumn df col).map fillnaNone)).map
      (fun n => Val.num (Nat.cast n)))

/-- The merge stage of `BaseCompanyFeatures.calculate`: a one-column
`ticker` frame built from the requested list, left-joined with
`tickers_df[['ticker'] + cat_columns]` on `ticker`. -/
def baseMerged (catColumns : List String) (tickersDf : DataFrame)
    (tickers : List String) : DataFrame :=
  leftMerge ⟨["ticker"], tickers.map (fun t => [Val.str t])⟩
    (restrictCols tickersDf ("ticker" :: catColumns)) ["ticker"]

/-- `BaseCompanyFeatures.calculate` (src/features.py), taking the parsed
`{data_path}/cf1/tickers.csv` frame as an argument: merge, then label
encode each categorical column in turn. -/
def baseCompanyCalculate (catColumns : List String) (tickersDf : DataFrame)
    (tickers : List String) : DataFrame :=
  catColumns.foldl encodeStep (baseMerged catColumns tickersDf tickers)

example :
    getColumn (baseCompanyCalculate ["sector"]
        ⟨["ticker", "sector", "x"],
         [[Val.str "A", Val.str "tech", Val.num 1],
          [Val.str "B", Val.null, Val.num 2]]⟩
        ["A", "B", "C"]) "sector"
    = [Val.num 1, Val.num 0, Val.num 0] := by decide

/-! ## Helper lemmas -/

theorem string_append_cancel {p a b : String} (h : p ++ a = p ++ b) : a = b := by
  have hd : p.data ++ a.data = p.data ++ b.data := by
    rw [← String.data_append, ← String.data_append, h]
  exact String.ext (List.append_cancel_left hd)

theorem string_append_injective (p : String) :
    Function.Injective (fun s => p ++ s) := fun _ _ h => string_append_cancel h

/-- Modelled from the spec: the sequence of consecutive differences
`series[i+1] - series[i]` of a sequence, stated positionally. -/
def specConsecutiveDiffs (xs : List ℚ) : List ℚ :=
  (List.range (xs.length - 1)).map (fun i => xs.getD (i + 1) 0 - xs.getD i 0)

theorem npDiff_eq_specConsecutiveDiffs (xs : List ℚ) :
    npDiff xs = specConsecutiveDiffs xs := by
  have hlen : (npDiff xs).length = xs.length - 1 := by
    simp [npDiff, List.length_zipWith]
  apply List.ext_getElem
  · simp [hlen, specConsecutiveDiffs]
  · intro i h1 h2
    have hi : i < xs.length - 1 := by rw [hlen] at h1; exact h1
    have hlt : i + 1 < xs.length := by omega
    simp only [npDiff, specConsecutiveDiffs]
    rw [List.getElem_zipWith, List.getElem_map, List.getElem_range]
    rw [List.getElem_tail]
    rw [List.getD_eq_getElem?_getD, List.getD_eq_getElem?_getD]
    rw [List.getElem?_eq_getElem hlt, List.getElem?_eq_getElem (by omega : i < xs.length)]
    simp

theorem npMaxInitial_nan_absorbs (xs : List ℚ) :
    npMaxInitial NpFloat.nan xs = NpFloat.nan := by
  induction xs with
  | nil => rfl
  | cons x t ih => simpa [npMaxInitial, List.foldl_cons] using ih

theorem npMinInitial_nan_absorbs (xs : List ℚ) :
    npMinInitial NpFloat.nan xs = NpFloat.nan := by
  induction xs with
  | nil => rfl
  | cons x t ih => simpa [npMinInitial, List.foldl_cons] using ih

/-! ## Claim theorems: series statistics -/

/-- C1: the claim says `{prefix}_max` / `{prefix}_min` equal the true
maximum / minimum of the filtered non-empty series.  The code passes
`initial=np.nan` to `np.max`/`np.min`, and `np.maximum`/`np.minimum`
propagate NaN, so on the float64 path both statistics are NaN for every
input — here on `[10, 12, 9, 15]` the claimed values 15 and 9 are not
produced.  Only the empty-input half of the claim (degrade to NaN rather
than raising) holds. -/
theorem calcSeriesStats_max_min_always_nan :
    (calcSeriesStats [some 10, some 12, some 9, some 15] "p").lookup "p_max"
        = some NpFloat.nan
  ∧ (calcSeriesStats [some 10, some 12, some 9, some 15] "p").lookup "p_min"
        = some NpFloat.nan
  ∧ NpFloat.nan ≠ NpFloat.val 15
  ∧ NpFloat.nan ≠ NpFloat.val 9
  ∧ (∀ xs : List ℚ, npMaxInitial NpFloat.nan xs = NpFloat.nan)
  ∧ (∀ xs : List ℚ, npMinInitial NpFloat.nan xs = NpFloat.nan)
  ∧ (calcSeriesStats [] "p").lookup "p_max" = some NpFloat.nan
  ∧ (calcSeriesStats [] "p").lookup "p_min" = some NpFloat.nan :=
  ⟨rfl, rfl, by decide, by decide, npMaxInitial_nan_absorbs,
   npMinInitial_nan_absorbs, rfl, rfl⟩

/-- C6: `calc_series_stats` returns exactly the ten keys
`{prefix}_mean`, `{prefix}_median`, `{prefix}_max`, `{prefix}_min`,
`{prefix}_std` and the same five with `diff_` inserted, pairwise
distinct; the first five statistics are taken over the filtered series
and the last five over its sequence of consecutive differences
`series[i+1] - series[i]`. -/
theorem calcSeriesStats_ten_keys (series : List (Option ℚ)) (p : String) :
    ((calcSeriesStats series p).map Prod.fst
      = ["_mean", "_median", "_max", "_min", "_std", "_diff_mean",
         "_diff_median", "_diff_max", "_diff_min", "_diff_std"].map
            (fun suf => p ++ suf))
  ∧ ((calcSeriesStats series p).map Prod.fst).Nodup
  ∧ (calcSeriesStats series p).length = 10
  ∧ (calcSeriesStats series p)[0]?
      = some (p ++ "_mean", npMean (series.filterMap id))
  ∧ (calcSeriesStats series p)[1]?
      = some (p ++ "_median", npMedian (series.filterMap id))
  ∧ (calcSeriesStats series p)[2]?
      = some (p ++ "_max", npMaxInitial NpFloat.nan (series.filterMap id))
  ∧ (calcSeriesStats series p)[3]?
      = some (p ++ "_min", npMinInitial NpFloat.nan (series.filterMap id))
  ∧ (calcSeriesStats series p)[4]?
      = some (p ++ "_std", npStd (series.filterMap id))
  ∧ (calcSeriesStats series p)[5]?
      = some (p ++ "_diff_mean", npMean (specConsecutiveDiffs (series.filterMap id)))
  ∧ (calcSeriesStats series p)[6]?
      = some (p ++ "_diff_median", npMedian (specConsecutiveDiffs (series.filterMap id)))
  ∧ (calcSeriesStats series p)[7]?
      = some (p ++ "_diff_max", npMaxInitial NpFloat.nan (specConsecutiveDiffs (series.filterMap id)))
  ∧ (calcSeriesStats series p)[8]?
      = some (p ++ "_diff_min", npMinInitial NpFloat.nan (specConsecutiveDiffs (series.filterMap id)))
  ∧ (calcSeriesStats series p)[9]?
      = some (p ++ "_diff_std", npStd (specConsecutiveDiffs (series.filterMap id))) := by
  refine ⟨rfl, ?_, rfl, rfl, rfl, rfl, rfl, rfl, ?_, ?_, ?_, ?_, ?_⟩
  · have hsuf : (["_mean", "_median", "_max", "_min", "_std", "_diff_mean",
        "_diff_median", "_diff_max", "_diff_min", "_diff_std"] : List String).Nodup := by
      decide
    have : ((["_mean", "_median", "_max", "_min", "_std", "_diff_mean",
        "_diff_median", "_diff_max", "_diff_min", "_diff_std"] : List String).map
          (fun suf => p ++ suf)).Nodup := hsuf.map (string_append_injective p)
    simpa [calcSeriesStats] using this
  all_goals rw [← npDiff_eq_specConsecutiveDiffs]
  all_goals rfl

/-! ## Claim theorems: quarterly rolling-window features -/

theorem singleTicker_length (maxBackQuarter : ℕ) (quarterCounts : List ℕ)
    (columns : List String) (ticker : String) (data : List QRecord) :
    (singleTicker maxBackQuarter quarterCounts columns ticker data).length
      = min maxBackQuarter (data.length - 1) := by
  simp [singleTicker]

/-- C2: per ticker, `_single_ticker` emits exactly
`min(max_back_quarter, len - 1)` rows (hence never more), and the row for
back-quarter offset `b` carries the ticker and the date of the most
recent record of its window `quarterly_data[b:]`, i.e. of record `b`. -/
theorem singleTicker_row_count_and_content (maxBackQuarter : ℕ)
    (quarterCounts : List ℕ) (columns : List String) (ticker : String)
    (data : List QRecord) :
    (singleTicker maxBackQuarter quarterCounts columns ticker data).length
      = min maxBackQuarter (data.length - 1)
  ∧ ∀ b, b < (singleTicker maxBackQuarter quarterCounts columns ticker data).length →
      ((singleTicker maxBackQuarter quarterCounts columns ticker data).getD b default).ticker
          = ticker
      ∧ ((singleTicker maxBackQuarter quarterCounts columns ticker data).getD b default).date
          = (data.getD b default).date := by
  refine ⟨singleTicker_length _ _ _ _ _, ?_⟩
  intro b hb
  rw [singleTicker_length] at hb
  have hbd : b < data.length := by omega
  have hrow : (singleTicker maxBackQuarter quarterCounts columns ticker data)[b]?
      = some { ticker := ticker
               date := ((data.drop b).headD default).date
               feats := calcSeriesFeats quarterCounts columns (data.drop b) } := by
    simp [singleTicker, List.getElem?_map, List.getElem?_range, hb]
  constructor
  · rw [List.getD_eq_getElem?_getD, hrow]
    rfl
  · rw [List.getD_eq_getElem?_getD, hrow]
    show ((data.drop b).headD default).date = (data.getD b default).date
    rw [List.headD_eq_head?_getD, List.head?_drop, List.getD_eq_getElem?_getD]

/-- Sample quarterly records used by concrete witnesses. -/
def qrec0 : QRecord := ⟨"2020-03-31", fun c => if c = "v" then some 3 else none⟩

def qrec1 : QRecord := ⟨"2019-12-31", fun c => if c = "v" then some 2 else none⟩

def qrec2 : QRecord := ⟨"2019-09-30", fun c => if c = "v" then some 1 else none⟩

/-- C2 witness: a ticker with exactly 3 quarterly records and
`max_back_quarter = 10` yields exactly 2 rows, carrying the ticker and
the window head dates. -/
theorem singleTicker_three_records_witness :
    (singleTicker 10 [2] ["v"] "AAPL" [qrec0, qrec1, qrec2]).length = 2
  ∧ ((singleTicker 10 [2] ["v"] "AAPL" [qrec0, qrec1, qrec2]).getD 0 default).ticker = "AAPL"
  ∧ ((singleTicker 10 [2] ["v"] "AAPL" [qrec0, qrec1, qrec2]).getD 0 default).date = "2020-03-31"
  ∧ ((singleTicker 10 [2] ["v"] "AAPL" [qrec0, qrec1, qrec2]).getD 1 default).ticker = "AAPL"
  ∧ ((singleTicker 10 [2] ["v"] "AAPL" [qrec0, qrec1, qrec2]).getD 1 default).date = "2019-12-31" := by
  have h := singleTicker_row_count_and_content 10 [2] ["v"] "AAPL" [qrec0, qrec1, qrec2]
  have hl : (singleTicker 10 [2] ["v"] "AAPL" [qrec0, qrec1, qrec2]).length = 2 := by
    rw [h.1]; decide
  have h0 := h.2 0 (by rw [hl]; decide)
  have h1 := h.2 1 (by rw [hl]; decide)
  exact ⟨hl, h0.1, h0.2, h1.1, h1.2⟩

/-- C9: a ticker whose quarterly sequence has zero or one records
produces no rows and no error: the loop bound
`min(max_back_quarter, len - 1)` is zero. -/
theorem singleTicker_degenerate (maxBackQuarter : ℕ) (quarterCounts : List ℕ)
    (columns : List String) (ticker : String) (data : List QRecord)
    (h : data.length ≤ 1) :
    singleTicker maxBackQuarter quarterCounts columns ticker data = [] := by
  have h0 : data.length - 1 = 0 := by omega
  simp [singleTicker, h0]

/-- C9 witness: a single-record sequence yields no rows. -/
theorem singleTicker_degenerate_witness :
    ([qrec0] : List QRecord).length ≤ 1
  ∧ singleTicker 10 [2, 4, 10] ["v"] "AAPL" [qrec0] = [] :=
  ⟨by decide, singleTicker_degenerate 10 [2, 4, 10] ["v"] "AAPL" [qrec0] (by decide)⟩

/-! ## Left-merge lemmas -/

theorem length_filter_le_one_of_nodup_map {α β : Type _} (f : α → β) (c : β)
    (xs : List α) (p : α → Bool) (h : (xs.map f).Nodup)
    (hp : ∀ a, p a = true → f a = c) :
    (xs.filter p).length ≤ 1 := by
  induction xs with
  | nil => simp
  | cons a as ih =>
    rw [List.map_cons, List.nodup_cons] at h
    by_cases hpa : p a = true
    · rw [List.filter_cons_of_pos hpa]
      have hnil : as.filter p = [] := by
        rw [List.filter_eq_nil_iff]
        intro b hb hpb
        refine absurd ?_ h.1
        have hmem : f b ∈ List.map f as := List.mem_map_of_mem f hb
        rwa [hp b hpb, ← hp a hpa] at hmem
      simp [hnil]
    · rw [List.filter_cons_of_neg (by simpa using hpa)]
      exact ih h.2

theorem flatMap_eq_map_of_singleton {α β : Type _} (g : α → List β) (t : α → β)
    (xs : List α) (h : ∀ a ∈ xs, g a = [t a]) : xs.flatMap g = xs.map t := by
  induction xs with
  | nil => rfl
  | cons a as ih =>
    have ha := h a (List.mem_cons_self a as)
    have htail := ih (fun b hb => h b (List.mem_cons_of_mem a hb))
    simp [List.flatMap_cons, ha, htail]

/-- Under right-key uniqueness, the left merge turns each left row into
exactly one output row: its own cells followed by the matching right
row's non-key cells, or nulls when no right row matches. -/
theorem leftMerge_rows_of_unique_right (l r : DataFrame) (onCols : List String)
    (huniq : (r.rows.map (keyTuple r onCols)).Nodup) :
    (leftMerge l r onCols).rows = l.rows.map (fun lr =>
      match r.rows.filter
          (fun rr => decide (keyTuple l onCols lr = keyTuple r onCols rr)) with
      | [] => lr ++ (r.cols.filter (fun c => ¬ onCols.contains c)).map
          (fun _ => Val.null)
      | rr :: _ => lr ++ (r.cols.filter (fun c => ¬ onCols.contains c)).map
          (getCell r rr)) := by
  show l.rows.flatMap _ = _
  apply flatMap_eq_map_of_singleton
  intro lr _
  have hle : (r.rows.filter
      (fun rr => decide (keyTuple l onCols lr = keyTuple r onCols rr))).length ≤ 1 :=
    length_filter_le_one_of_nodup_map (keyTuple r onCols) (keyTuple l onCols lr)
      r.rows _ huniq (fun rr hrr => (of_decide_eq_true hrr).symm)
  cases hf : r.rows.filter
      (fun rr => decide (keyTuple l onCols lr = keyTuple r onCols rr)) with
  | nil => simp only [hf]
  | cons rr rest =>
    rw [hf] at hle
    have hrest : rest = [] := by
      rw [List.length_cons] at hle
      exact List.eq_nil_of_length_eq_zero (by omega)
    subst hrest
    simp only [hf, List.map_cons, List.map_nil]

/-! ## Claim theorems: feature merger -/

/-- C3 counterexample: the output row count of a pandas left merge is not
always the left row count — a right table with two rows under the same
key value replicates the single left row, giving two output rows. -/
theorem leftMerge_row_count_counterexample :
    (leftMerge ⟨["k", "a"], [[Val.num 1, Val.num 2]]⟩
        ⟨["k", "b"], [[Val.num 1, Val.num 3], [Val.num 1, Val.num 4]]⟩
        ["k"]).rows.length
      ≠ (⟨["k", "a"], [[Val.num 1, Val.num 2]]⟩ : DataFrame).rows.length := by
  decide

/-- C3 (amended): when the right table has at most one row per key tuple,
`FeatureMerger.calculate`'s left merge keeps every left row, in order and
verbatim as a prefix of its output row; the appended cells come from the
unique matching right row's non-key columns, or are all nulls when no
right row matches (so unmatched right rows contribute nothing); the
output row count equals the left row count. -/
theorem leftMerge_left_anchored (l r : DataFrame) (onCols : List String)
    (huniq : (r.rows.map (keyTuple r onCols)).Nodup) :
    (leftMerge l r onCols).rows.length = l.rows.length
  ∧ ∀ i, i < l.rows.length →
      ((leftMerge l r onCols).rows.getD i []).take (l.rows.getD i []).length
          = l.rows.getD i []
      ∧ ((r.rows.filter (fun rr =>
              decide (keyTuple l onCols (l.rows.getD i []) = keyTuple r onCols rr)) = []
            ∧ (leftMerge l r onCols).rows.getD i []
                = l.rows.getD i []
                  ++ (r.cols.filter (fun c => ¬ onCols.contains c)).map
                      (fun _ => Val.null))
        ∨ (∃ rr, rr ∈ r.rows
            ∧ keyTuple l onCols (l.rows.getD i []) = keyTuple r onCols rr
            ∧ (leftMerge l r onCols).rows.getD i []
                = l.rows.getD i []
                  ++ (r.cols.filter (fun c => ¬ onCols.contains c)).map
                      (getCell r rr))) := by
  have hrows := leftMerge_rows_of_unique_right l r onCols huniq
  constructor
  · rw [hrows, List.length_map]
  · intro i hi
    have hrow : (leftMerge l r onCols).rows.getD i []
        = (fun lr =>
            match r.rows.filter
                (fun rr => decide (keyTuple l onCols lr = keyTuple r onCols rr)) with
            | [] => lr ++ (r.cols.filter (fun c => ¬ onCols.contains c)).map
                (fun _ => Val.null)
            | rr :: _ => lr ++ (r.cols.filter (fun c => ¬ onCols.contains c)).map
                (getCell r rr)) (l.rows.getD i []) := by
      rw [hrows, List.getD_eq_getElem?_getD, List.getElem?_map,
        List.getD_eq_getElem?_getD, List.getElem?_eq_getElem hi]
      rfl
    simp only [] at hrow
    cases hf : r.rows.filter
        (fun rr => decide (keyTuple l onCols (l.rows.getD i []) = keyTuple r onCols rr)) with
    | nil =>
      rw [hf] at hrow
      simp only at hrow
      rw [hrow]
      exact ⟨List.take_left _ _, Or.inl ⟨rfl, rfl⟩⟩
    | cons rr rest =>
      rw [hf] at hrow
      simp only at hrow
      rw [hrow]
      have hmem : rr ∈ r.rows.filter
          (fun rr => decide (keyTuple l onCols (l.rows.getD i []) = keyTuple r onCols rr)) := by
        rw [hf]; exact List.mem_cons_self rr rest
      have hmem2 := List.mem_filter.mp hmem
      exact ⟨List.take_left _ _,
        Or.inr ⟨rr, hmem2.1, of_decide_eq_true hmem2.2, rfl⟩⟩

/-- C3 witness: a two-row left table against a unique-keyed right table —
one left row matched, one unmatched. -/
theorem leftMerge_left_anchored_witness :
    ((⟨["k", "b"], [[Val.num 1, Val.num 3]]⟩ : DataFrame).rows.map
        (keyTuple ⟨["k", "b"], [[Val.num 1, Val.num 3]]⟩ ["k"])).Nodup
  ∧ (leftMerge ⟨["k", "a"], [[Val.num 1, Val.num 2], [Val.num 7, Val.num 8]]⟩
        ⟨["k", "b"], [[Val.num 1, Val.num 3]]⟩ ["k"]).rows.length
      = (⟨["k", "a"], [[Val.num 1, Val.num 2], [Val.num 7, Val.num 8]]⟩ : DataFrame).rows.length := by
  refine ⟨by decide, ?_⟩
  exact (leftMerge_left_anchored
    ⟨["k", "a"], [[Val.num 1, Val.num 2], [Val.num 7, Val.num 8]]⟩
    ⟨["k", "b"], [[Val.num 1, Val.num 3]]⟩ ["k"] (by decide)).1

/-- C8: the store-level merge of `FeatureMerger.calculate` only appends a
fresh frame: every frame already in the pool — in particular both input
feature tables — is unchanged. -/
theorem featureMergerStep_no_mutation (store : List DataFrame) (i j k : ℕ)
    (onCols : List String) (hk : k < store.length) :
    (featureMergerStep store i j onCols).1.take store.length = store
  ∧ (featureMergerStep store i j onCols).1.getD k ⟨[], []⟩ = store.getD k ⟨[], []⟩ := by
  constructor
  · exact List.take_left _ _
  · show (store ++ [_]).getD k _ = _
    rw [List.getD_eq_getElem?_getD, List.getElem?_append_left hk,
      List.getD_eq_getElem?_getD]

/-- C8 witness: a two-frame pool is untouched by the merge step. -/
theorem featureMergerStep_no_mutation_witness :
    (0 : ℕ) < ([⟨["k"], [[Val.num 1]]⟩, ⟨["k"], [[Val.num 2]]⟩] : List DataFrame).length
  ∧ (featureMergerStep [⟨["k"], [[Val.num 1]]⟩, ⟨["k"], [[Val.num 2]]⟩] 0 1 ["k"]).1.take 2
      = [⟨["k"], [[Val.num 1]]⟩, ⟨["k"], [[Val.num 2]]⟩]
  ∧ (featureMergerStep [⟨["k"], [[Val.num 1]]⟩, ⟨["k"], [[Val.num 2]]⟩] 0 1 ["k"]).1.getD 0 ⟨[], []⟩
      = ⟨["k"], [[Val.num 1]]⟩ := by
  have h := featureMergerStep_no_mutation
    [⟨["k"], [[Val.num 1]]⟩, ⟨["k"], [[Val.num 2]]⟩] 0 1 0 ["k"] (by decide)
  exact ⟨by decide, h.1, by rw [h.2]; rfl⟩

/-! ## Claim theorems: daily bars loader -/

theorem filterMap_filter_eq {α β : Type _} (p : α → Bool) (g : α → Option β)
    (xs : List α) (h : ∀ a, p a = false → g a = none) :
    (xs.filter p).filterMap g = xs.filterMap g := by
  induction xs with
  | nil => rfl
  | cons a as ih =>
    cases hpa : p a with
    | true =>
      rw [List.filter_cons_of_pos hpa, List.filterMap_cons, List.filterMap_cons]
      cases g a <;> simp [ih]
    | false =>
      rw [List.filter_cons_of_neg (by simp [hpa]), List.filterMap_cons, h a hpa, ih]

/-- C4: `DailyBarsData.load` silently skips tickers without a file
(loading a ticker list is the same as loading its sublist of tickers
that do have files), and when no requested ticker has a file it returns
`None` — an explicit no-data signal — rather than an empty table. -/
theorem dailyBarsLoad_missing_files (files : String → Option (List Bar))
    (daysCount : ℕ) (index : List String) :
    dailyBarsLoad files daysCount (index.filter (fun t => (files t).isSome))
      = dailyBarsLoad files daysCount index
  ∧ ((∀ t ∈ index, files t = none) →
      dailyBarsLoad files daysCount index = none) := by
  constructor
  · simp only [dailyBarsLoad]
    rw [filterMap_filter_eq]
    intro a ha
    simp only [dailyBlock]
    cases hf : files a with
    | none => rfl
    | some bars => rw [hf] at ha; simp at ha
  · intro h
    have hnil : index.filterMap (dailyBlock files daysCount) = [] := by
      rw [List.filterMap_eq_nil_iff]
      intro t ht
      simp [dailyBlock, h t ht]
    simp [dailyBarsLoad, hnil]

/-- C4 witness: two requested tickers, both without a file. -/
theorem dailyBarsLoad_missing_files_witness :
    (∀ t ∈ (["NODATA1", "NODATA2"] : List String),
        (fun _ : String => (none : Option (List Bar))) t = none)
  ∧ dailyBarsLoad (fun _ => none) 100000 ["NODATA1", "NODATA2"] = none :=
  ⟨fun _ _ => rfl,
   (dailyBarsLoad_missing_files (fun _ => none) 100000 ["NODATA1", "NODATA2"]).2
     (fun _ _ => rfl)⟩

theorem fst_mem_of_mem_dailyBlocks (files : String → Option (List Bar))
    (daysCount : ℕ) (index : List String) (p : String × Bar)
    (hp : p ∈ (index.filterMap (dailyBlock files daysCount)).flatten) :
    p.1 ∈ index := by
  rw [List.mem_flatten] at hp
  obtain ⟨block, hblock, hpb⟩ := hp
  rw [List.mem_filterMap] at hblock
  obtain ⟨u, hu, hgu⟩ := hblock
  simp only [dailyBlock] at hgu
  cases hf : files u with
  | none => rw [hf] at hgu; simp at hgu
  | some bars =>
    rw [hf] at hgu
    simp only [Option.map_some'] at hgu
    injection hgu with hgu
    rw [← hgu, List.mem_map] at hpb
    obtain ⟨b, _, hb⟩ := hpb
    rw [← hb]
    exact hu

theorem dailyBarsLoad_filter_block (files : String → Option (List Bar))
    (daysCount : ℕ) (t : String) (bars : List Bar)
    (hfile : files t = some bars) :
    ∀ index : List String, index.Nodup → t ∈ index →
      ((index.filterMap (dailyBlock files daysCount)).flatten).filter
          (fun p => p.1 == t)
        = (bars.reverse.take daysCount).map (fun b => (t, b)) := by
  intro index
  induction index with
  | nil => intro _ hmem; cases hmem
  | cons u rest ih =>
    intro hnod hmem
    rw [List.nodup_cons] at hnod
    rw [List.filterMap_cons]
    by_cases hut : u = t
    · subst hut
      rw [show dailyBlock files daysCount u
            = some ((bars.reverse.take daysCount).map (fun b => (u, b))) from by
          simp [dailyBlock, hfile]]
      rw [List.flatten_cons, List.filter_append]
      have h1 : ((bars.reverse.take daysCount).map (fun b => (u, b))).filter
          (fun p => p.1 == u) = (bars.reverse.take daysCount).map (fun b => (u, b)) := by
        rw [List.filter_eq_self]
        intro p hp
        rw [List.mem_map] at hp
        obtain ⟨b, _, hb⟩ := hp
        rw [← hb]
        exact beq_self_eq_true u
      have h2 : ((rest.filterMap (dailyBlock files daysCount)).flatten).filter
          (fun p => p.1 == u) = [] := by
        rw [List.filter_eq_nil_iff]
        intro p hp hbeq
        have hmem2 := fst_mem_of_mem_dailyBlocks files daysCount rest p hp
        rw [eq_of_beq hbeq] at hmem2
        exact hnod.1 hmem2
      rw [h1, h2, List.append_nil]
    · have hmem2 : t ∈ rest := by
        cases hmem with
        | head => exact absurd rfl hut
        | tail _ h => exact h
      cases hfu : files u with
      | none =>
        rw [show dailyBlock files daysCount u = none from by simp [dailyBlock, hfu]]
        exact ih hnod.2 hmem2
      | some ubars =>
        rw [show dailyBlock files daysCount u
              = some ((ubars.reverse.take daysCount).map (fun b => (u, b))) from by
            simp [dailyBlock, hfu]]
        rw [List.flatten_cons, List.filter_append]
        have h1 : ((ubars.reverse.take daysCount).map (fun b => (u, b))).filter
            (fun p => p.1 == t) = [] := by
          rw [List.filter_eq_nil_iff]
          intro p hp hbeq
          rw [List.mem_map] at hp
          obtain ⟨b, _, hb⟩ := hp
          apply hut
          rw [← hb] at hbeq
          exact eq_of_beq hbeq
        rw [h1, List.nil_append]
        exact ih hnod.2 hmem2

/-- C7: for a requested ticker whose file exists, `DailyBarsData.load`
succeeds and returns, for that ticker, exactly its on-disk rows reversed
(most-recent-first) and capped to the most recent `days_count` rows; a
`days_count` of `None` defaults to the effectively unbounded
`int(1e5) = 100000`. -/
theorem dailyBarsLoad_present_ticker (files : String → Option (List Bar))
    (daysCountOpt : Option ℕ) (t : String) (bars : List Bar)
    (index : List String) (hfile : files t = some bars) (hmem : t ∈ index)
    (hnod : index.Nodup) :
    dailyBarsDaysCount none = 100000
  ∧ ∃ rows,
      dailyBarsLoad files (dailyBarsDaysCount daysCountOpt) index = some rows
      ∧ rows.filter (fun p => p.1 == t)
          = (bars.reverse.take (dailyBarsDaysCount daysCountOpt)).map
              (fun b => (t, b)) := by
  refine ⟨rfl, ?_⟩
  have hblock : dailyBlock files (dailyBarsDaysCount daysCountOpt) t
      = some ((bars.reverse.take (dailyBarsDaysCount daysCountOpt)).map
          (fun b => (t, b))) := by
    simp [dailyBlock, hfile]
  have hne : index.filterMap (dailyBlock files (dailyBarsDaysCount daysCountOpt)) ≠ [] := by
    intro h
    rw [List.filterMap_eq_nil_iff] at h
    rw [h t hmem] at hblock
    exact Option.noConfusion hblock
  refine ⟨(index.filterMap (dailyBlock files (dailyBarsDaysCount daysCountOpt))).flatten,
    ?_, ?_⟩
  · simp only [dailyBarsLoad]
    rw [if_neg (by simpa [List.isEmpty_iff] using hne)]
  · exact dailyBarsLoad_filter_block files (dailyBarsDaysCount daysCountOpt) t bars
      hfile index hnod hmem

/-- Sample daily bars used by concrete witnesses. -/
def barOld : Bar := ⟨"2021-01-01", [("Close", Val.num 1)]⟩

def barNew : Bar := ⟨"2021-01-02", [("Close", Val.num 2)]⟩

/-- C7 witness: a two-row file capped to the single most recent row;
the other requested ticker has no file. -/
theorem dailyBarsLoad_present_ticker_witness :
    (fun u => if u = "AAPL" then some [barOld, barNew] else none) "AAPL"
        = some [barOld, barNew]
  ∧ "AAPL" ∈ (["AAPL", "MSFT"] : List String)
  ∧ (["AAPL", "MSFT"] : List String).Nodup
  ∧ dailyBarsDaysCount none = 100000
  ∧ ∃ rows,
      dailyBarsLoad (fun u => if u = "AAPL" then some [barOld, barNew] else none)
          (dailyBarsDaysCount (some 1)) ["AAPL", "MSFT"] = some rows
      ∧ rows.filter (fun p => p.1 == "AAPL")
          = (([barOld, barNew] : List Bar).reverse.take
              (dailyBarsDaysCount (some 1))).map (fun b => ("AAPL", b)) := by
  have h := dailyBarsLoad_present_ticker
    (fun u => if u = "AAPL" then some [barOld, barNew] else none) (some 1)
    "AAPL" [barOld, barNew] ["AAPL", "MSFT"] (by decide) (by decide) (by decide)
  exact ⟨by decide, by decide, by decide, h.1, h.2⟩

/-! ## Base company features: frame lemmas -/

/-- Row/column alignment of a frame. -/
def wfFrame (df : DataFrame) : Prop :=
  ∀ row ∈ df.rows, row.length = df.cols.length

theorem findIdx?_beq_some {cols : List String} {c : String} {i : ℕ}
    (h : cols.findIdx? (fun c0 => c0 == c) = some i) :
    i < cols.length ∧ cols.getD i "" = c := by
  rw [List.findIdx?_eq_some_iff_findIdx_eq] at h
  obtain ⟨hi, hfi⟩ := h
  refine ⟨hi, ?_⟩
  have hp := @List.findIdx_getElem _ (fun c0 => c0 == c) cols (by rw [hfi]; exact hi)
  simp only [hfi] at hp
  rw [List.getD_eq_getElem?_getD, List.getElem?_eq_getElem hi]
  exact eq_of_beq hp

theorem findIdx?_beq_of_mem {cols : List String} {c : String} (h : c ∈ cols) :
    ∃ i, cols.findIdx? (fun c0 => c0 == c) = some i := by
  cases hf : cols.findIdx? (fun c0 => c0 == c) with
  | some i => exact ⟨i, rfl⟩
  | none =>
    rw [List.findIdx?_eq_none_iff] at hf
    have := hf c h
    simp at this

theorem getCell_of_findIdx? {df : DataFrame} {c : String} {i : ℕ}
    (h : df.cols.findIdx? (fun c0 => c0 == c) = some i) (row : List Val) :
    getCell df row c = row.getD i Val.null := by
  unfold getCell
  rw [h]

theorem getCell_of_findIdx?_none {df : DataFrame} {c : String}
    (h : df.cols.findIdx? (fun c0 => c0 == c) = none) (row : List Val) :
    getCell df row c = Val.null := by
  unfold getCell
  rw [h]

theorem encodeStep_cols (df : DataFrame) (col : String) :
    (encodeStep df col).cols = df.cols := by
  unfold encodeStep setColumn
  cases h : df.cols.findIdx? (fun c0 => c0 == col) <;> simp only [h]

theorem labelFitTransform_length (xs : List String) :
    (labelFitTransform xs).length = xs.length := by
  simp [labelFitTransform]

theorem getColumn_length (df : DataFrame) (c : String) :
    (getColumn df c).length = df.rows.length := by
  simp [getColumn]

theorem encodeStep_rows_length (df : DataFrame) (col : String) :
    (encodeStep df col).rows.length = df.rows.length := by
  unfold encodeStep setColumn
  cases h : df.cols.findIdx? (fun c0 => c0 == col) with
  | none => simp only [h]
  | some i =>
    simp only [h]
    show (List.zipWith _ df.rows _).length = _
    rw [List.length_zipWith, List.length_map, labelFitTransform_length,
      List.length_map, getColumn_length, Nat.min_self]

theorem foldl_encodeStep_cols (cats : List String) :
    ∀ df : DataFrame, (cats.foldl encodeStep df).cols = df.cols := by
  induction cats with
  | nil => intro df; rfl
  | cons c cs ih => intro df; rw [List.foldl_cons, ih, encodeStep_cols]

theorem foldl_encodeStep_rows_length (cats : List String) :
    ∀ df : DataFrame, (cats.foldl encodeStep df).rows.length = df.rows.length := by
  induction cats with
  | nil => intro df; rfl
  | cons c cs ih => intro df; rw [List.foldl_cons, ih, encodeStep_rows_length]

theorem map_getD_zipWith_set_ne {i i' : ℕ} (hne : i ≠ i') :
    ∀ (rows : List (List Val)) (vs : List Val), vs.length = rows.length →
      (List.zipWith (fun r v => r.set i v) rows vs).map (fun r => r.getD i' Val.null)
        = rows.map (fun r => r.getD i' Val.null) := by
  intro rows
  induction rows with
  | nil => intro vs _; rfl
  | cons r rs ih =>
    intro vs hlen
    cases vs with
    | nil => simp at hlen
    | cons v vt =>
      rw [List.zipWith_cons_cons, List.map_cons, List.map_cons]
      congr 1
      · rw [List.getD_eq_getElem?_getD, List.getD_eq_getElem?_getD,
          List.getElem?_set_ne hne]
      · exact ih vt (by simpa using hlen)

theorem map_getD_zipWith_set_self {i : ℕ} :
    ∀ (rows : List (List Val)) (vs : List Val), vs.length = rows.length →
      (∀ r ∈ rows, i < r.length) →
      (List.zipWith (fun r v => r.set i v) rows vs).map (fun r => r.getD i Val.null)
        = vs := by
  intro rows
  induction rows with
  | nil =>
    intro vs hlen _
    cases vs with
    | nil => rfl
    | cons v vt => simp at hlen
  | cons r rs ih =>
    intro vs hlen hbound
    cases vs with
    | nil => simp at hlen
    | cons v vt =>
      rw [List.zipWith_cons_cons, List.map_cons]
      congr 1
      · rw [List.getD_eq_getElem?_getD,
          List.getElem?_set_eq_of_lt v (hbound r (List.mem_cons_self r rs))]
        rfl
      · exact ih vt (by simpa using hlen)
          (fun r' hr' => hbound r' (List.mem_cons_of_mem r hr'))

theorem length_eq_of_mem_zipWith_set {i : ℕ} :
    ∀ (rows : List (List Val)) (vs : List Val) (x : List Val),
      x ∈ List.zipWith (fun r v => r.set i v) rows vs →
      ∃ r ∈ rows, x.length = r.length := by
  intro rows
  induction rows with
  | nil => intro vs x hx; simp at hx
  | cons r rs ih =>
    intro vs x hx
    cases vs with
    | nil => simp at hx
    | cons v vt =>
      rw [List.zipWith_cons_cons] at hx
      cases hx with
      | head => exact ⟨r, List.mem_cons_self r rs, List.length_set r i v⟩
      | tail _ h =>
        obtain ⟨r', hr', hl⟩ := ih vt x h
        exact ⟨r', List.mem_cons_of_mem r hr', hl⟩

theorem getColumn_encodeStep_ne (df : DataFrame) (col c' : String) (hne : c' ≠ col) :
    getColumn (encodeStep df col) c' = getColumn df c' := by
  unfold encodeStep setColumn
  cases hcol : df.cols.findIdx? (fun c0 => c0 == col) with
  | none => simp only [hcol]
  | some i =>
    simp only [hcol]
    generalize hz : List.zipWith (fun r v => r.set i v) df.rows
      ((labelFitTransform ((getColumn df col).map fillnaNone)).map
        (fun n => Val.num (Nat.cast n))) = zrows
    show (getColumn ⟨df.cols, zrows⟩ c') = getColumn df c'
    have hvl : ((labelFitTransform ((getColumn df col).map fillnaNone)).map
        (fun n => Val.num (Nat.cast n))).length = df.rows.length := by
      rw [List.length_map, labelFitTransform_length, List.length_map, getColumn_length]
    show zrows.map (fun r => getCell ⟨df.cols, zrows⟩ r c')
        = df.rows.map (fun r => getCell df r c')
    cases hc' : df.cols.findIdx? (fun c0 => c0 == c') with
    | none =>
      have hL : zrows.map (fun r => getCell ⟨df.cols, zrows⟩ r c')
          = zrows.map (fun _ => Val.null) :=
        List.map_congr_left
          (fun row _ => @getCell_of_findIdx?_none ⟨df.cols, zrows⟩ c' hc' row)
      have hR : df.rows.map (fun row => getCell df row c')
          = df.rows.map (fun _ => Val.null) :=
        List.map_congr_left (fun row _ => getCell_of_findIdx?_none hc' row)
      have hzl : zrows.length = df.rows.length := by
        rw [← hz, List.length_zipWith, hvl, Nat.min_self]
      rw [hL, hR, List.map_const', List.map_const', hzl]
    | some i' =>
      have h1 := findIdx?_beq_some hcol
      have h2 := findIdx?_beq_some hc'
      have hii : i ≠ i' := by
        intro hEq
        apply hne
        rw [← h2.2, ← hEq, h1.2]
      have hL : zrows.map (fun r => getCell ⟨df.cols, zrows⟩ r c')
          = zrows.map (fun r => r.getD i' Val.null) :=
        List.map_congr_left
          (fun row _ => @getCell_of_findIdx? ⟨df.cols, zrows⟩ c' i' hc' row)
      have hR : df.rows.map (fun row => getCell df row c')
          = df.rows.map (fun r => r.getD i' Val.null) :=
        List.map_congr_left (fun row _ => getCell_of_findIdx? hc' row)
      rw [hL, hR, ← hz]
      exact map_getD_zipWith_set_ne hii df.rows _ hvl

theorem getColumn_encodeStep_self (df : DataFrame) (col : String) {i : ℕ}
    (hcol : df.cols.findIdx? (fun c0 => c0 == col) = some i)
    (hwf : wfFrame df) :
    getColumn (encodeStep df col) col
      = (labelFitTransform ((getColumn df col).map fillnaNone)).map
          (fun n => Val.num (Nat.cast n)) := by
  unfold encodeStep setColumn
  simp only [hcol]
  generalize hz : List.zipWith (fun r v => r.set i v) df.rows
    ((labelFitTransform ((getColumn df col).map fillnaNone)).map
      (fun n => Val.num (Nat.cast n))) = zrows
  show zrows.map (fun r => getCell ⟨df.cols, zrows⟩ r col)
      = (labelFitTransform ((getColumn df col).map fillnaNone)).map
          (fun n => Val.num (Nat.cast n))
  have hL : zrows.map (fun r => getCell ⟨df.cols, zrows⟩ r col)
      = zrows.map (fun r => r.getD i Val.null) :=
    List.map_congr_left
      (fun row _ => @getCell_of_findIdx? ⟨df.cols, zrows⟩ col i hcol row)
  rw [hL, ← hz]
  exact map_getD_zipWith_set_self df.rows _
    (by rw [List.length_map, labelFitTransform_length, List.length_map, getColumn_length])
    (fun r hr => by rw [hwf r hr]; exact (findIdx?_beq_some hcol).1)

theorem getColumn_foldl_encodeStep_ne (col : String) :
    ∀ (cats : List String) (df : DataFrame), col ∉ cats →
      getColumn (cats.foldl encodeStep df) col = getColumn df col := by
  intro cats
  induction cats with
  | nil => intro df _; rfl
  | cons c cs ih =>
    intro df hmem
    rw [List.foldl_cons, ih (encodeStep df c) (fun h => hmem (List.mem_cons_of_mem c h)),
      getColumn_encodeStep_ne df c col
        (fun h => hmem (by rw [h]; exact List.mem_cons_self c cs))]

theorem encodeStep_wf (df : DataFrame) (col : String) (hwf : wfFrame df) :
    wfFrame (encodeStep df col) := by
  unfold encodeStep setColumn
  cases h : df.cols.findIdx? (fun c0 => c0 == col) with
  | none => simpa only [h] using hwf
  | some i =>
    simp only [h]
    intro row hrow
    obtain ⟨r, hr, hl⟩ := length_eq_of_mem_zipWith_set df.rows _ row hrow
    rw [hl]
    exact hwf r hr

theorem foldl_encodeStep_wf (cats : List String) :
    ∀ df : DataFrame, wfFrame df → wfFrame (cats.foldl encodeStep df) := by
  induction cats with
  | nil => intro df h; exact h
  | cons c cs ih => intro df h; exact ih (encodeStep df c) (encodeStep_wf df c h)

theorem getColumn_foldl_encodeStep_self (col : String) :
    ∀ (cats : List String) (df : DataFrame), cats.Nodup → col ∈ cats →
      col ∈ df.cols → wfFrame df →
      getColumn (cats.foldl encodeStep df) col
        = (labelFitTransform ((getColumn df col).map fillnaNone)).map
            (fun n => Val.num (Nat.cast n)) := by
  intro cats
  induction cats with
  | nil => intro df _ hmem; cases hmem
  | cons c cs ih =>
    intro df hnd hmem hcol hwf
    rw [List.nodup_cons] at hnd
    rw [List.foldl_cons]
    by_cases hceq : c = col
    · subst hceq
      rw [getColumn_foldl_encodeStep_ne c cs (encodeStep df c) hnd.1]
      obtain ⟨i, hi⟩ := findIdx?_beq_of_mem hcol
      exact getColumn_encodeStep_self df c hi hwf
    · have hmem2 : col ∈ cs := by
        cases hmem with
        | head => exact absurd rfl hceq
        | tail _ h => exact h
      rw [ih (encodeStep df c) hnd.2 hmem2
        (by rw [encodeStep_cols]; exact hcol) (encodeStep_wf df c hwf),
        getColumn_encodeStep_ne df c col (fun h => hceq h.symm)]

theorem leftMerge_wf (l r : DataFrame) (onCols : List String)
    (hl : ∀ lr ∈ l.rows, lr.length = l.cols.length) :
    wfFrame (leftMerge l r onCols) := by
  intro row hrow
  have hrow2 : row ∈ l.rows.flatMap (fun lr =>
      match r.rows.filter
          (fun rr => decide (keyTuple l onCols lr = keyTuple r onCols rr)) with
      | [] => [lr ++ (r.cols.filter (fun c => ¬ onCols.contains c)).map
          (fun _ => Val.null)]
      | ms => ms.map fun rr => lr ++ (r.cols.filter (fun c => ¬ onCols.contains c)).map
          (getCell r rr)) := hrow
  obtain ⟨lr, hlr, hmem⟩ := List.mem_flatMap.mp hrow2
  show row.length = (l.cols ++ r.cols.filter (fun c => ¬ onCols.contains c)).length
  rw [List.length_append]
  cases hf : r.rows.filter
      (fun rr => decide (keyTuple l onCols lr = keyTuple r onCols rr)) with
  | nil =>
    rw [hf] at hmem
    simp only [List.mem_singleton] at hmem
    rw [hmem, List.length_append, hl lr hlr, List.length_map]
  | cons rr0 rest =>
    rw [hf] at hmem
    simp only [List.mem_map] at hmem
    obtain ⟨rr, _, happ⟩ := hmem
    rw [← happ, List.length_append, hl lr hlr, List.length_map]

theorem baseMerged_cols (catColumns : List String) (tickersDf : DataFrame)
    (tickers : List String) (hns : "ticker" ∉ catColumns) :
    (baseMerged catColumns tickersDf tickers).cols = "ticker" :: catColumns := by
  show ["ticker"] ++ (("ticker" :: catColumns).filter
      (fun c => decide (¬ (["ticker"] : List String).contains c = true)))
    = "ticker" :: catColumns
  rw [List.filter_cons_of_neg (by simp)]
  rw [List.filter_eq_self.mpr]
  · rfl
  · intro c hc
    simp only [decide_eq_true_eq]
    intro h
    have hct : c = "ticker" := by simpa using h
    exact hns (hct ▸ hc)

/-! ## Claim theorems: base company features -/

/-- C5: in `BaseCompanyFeatures.calculate` every categorical cell that is
missing after the ticker left-join is filled with the literal `"None"`
before label encoding, so any two rows whose value for a categorical
column is absent receive the same integer code within one invocation. -/
theorem baseCompany_missing_encoded_alike (catColumns : List String)
    (tickersDf : DataFrame) (tickers : List String) (col : String) (i j : ℕ)
    (hnod : ("ticker" :: catColumns).Nodup) (hcol : col ∈ catColumns)
    (hvi : (getColumn (baseMerged catColumns tickersDf tickers) col)[i]?
        = some Val.null)
    (hvj : (getColumn (baseMerged catColumns tickersDf tickers) col)[j]?
        = some Val.null) :
    ∃ code : ℕ,
      (getColumn (baseCompanyCalculate catColumns tickersDf tickers) col)[i]?
          = some (Val.num (Nat.cast code))
      ∧ (getColumn (baseCompanyCalculate catColumns tickersDf tickers) col)[j]?
          = some (Val.num (Nat.cast code)) := by
  rw [List.nodup_cons] at hnod
  have hcols := baseMerged_cols catColumns tickersDf tickers hnod.1
  have hwfm : wfFrame (baseMerged catColumns tickersDf tickers) := by
    apply leftMerge_wf
    intro lr hlr
    rw [List.mem_map] at hlr
    obtain ⟨t, _, h⟩ := hlr
    rw [← h]
    rfl
  have henc := getColumn_foldl_encodeStep_self col catColumns
    (baseMerged catColumns tickersDf tickers) hnod.2 hcol
    (by rw [hcols]; exact List.mem_cons_of_mem _ hcol) hwfm
  unfold baseCompanyCalculate
  rw [henc]
  refine ⟨(sortStrings (((getColumn (baseMerged catColumns tickersDf tickers) col).map
      fillnaNone).dedup)).findIdx
        (fun c => c == "None"), ?_, ?_⟩
  · simp only [labelFitTransform]
    rw [List.getElem?_map, List.getElem?_map, List.getElem?_map, hvi]
    rfl
  · simp only [labelFitTransform]
    rw [List.getElem?_map, List.getElem?_map, List.getElem?_map, hvj]
    rfl

/-- Sample company-attribute table used by concrete witnesses: ticker B
has a null sector; ticker C is absent entirely. -/
def sampleTickersDf : DataFrame :=
  ⟨["ticker", "sector", "x"],
   [[Val.str "A", Val.str "tech", Val.num 1],
    [Val.str "B", Val.null, Val.num 2]]⟩

/-- C5 witness: ticker B (null sector in the table) and ticker C (absent
from the table) get the same encoded sector code. -/
theorem baseCompany_missing_encoded_alike_witness :
    (["ticker", "sector"] : List String).Nodup
  ∧ "sector" ∈ (["sector"] : List String)
  ∧ (getColumn (baseMerged ["sector"] sampleTickersDf ["A", "B", "C"]) "sector")[1]?
      = some Val.null
  ∧ (getColumn (baseMerged ["sector"] sampleTickersDf ["A", "B", "C"]) "sector")[2]?
      = some Val.null
  ∧ ∃ code : ℕ,
      (getColumn (baseCompanyCalculate ["sector"] sampleTickersDf ["A", "B", "C"])
          "sector")[1]? = some (Val.num (Nat.cast code))
      ∧ (getColumn (baseCompanyCalculate ["sector"] sampleTickersDf ["A", "B", "C"])
          "sector")[2]? = some (Val.num (Nat.cast code)) :=
  ⟨by decide, by decide, by decide, by decide,
   baseCompany_missing_encoded_alike ["sector"] sampleTickersDf ["A", "B", "C"]
     "sector" 1 2 (by decide) (by decide) (by decide) (by decide)⟩

/-- C10: provided the company table has at most one row per ticker,
`BaseCompanyFeatures.calculate` returns exactly one row per requested
ticker, with the `ticker` column equal to the request list in order —
tickers absent from the table included. -/
theorem baseCompany_one_row_per_ticker (catColumns : List String)
    (tickersDf : DataFrame) (tickers : List String)
    (hnod : ("ticker" :: catColumns).Nodup)
    (huniq : (tickersDf.rows.map (fun r => getCell tickersDf r "ticker")).Nodup) :
    (baseCompanyCalculate catColumns tickersDf tickers).rows.length = tickers.length
  ∧ getColumn (baseCompanyCalculate catColumns tickersDf tickers) "ticker"
      = tickers.map Val.str := by
  rw [List.nodup_cons] at hnod
  have hkey : ∀ row : List Val,
      keyTuple (restrictCols tickersDf ("ticker" :: catColumns)) ["ticker"] row
        = [row.getD 0 Val.null] := by
    intro row
    rfl
  have hkeys : ((restrictCols tickersDf ("ticker" :: catColumns)).rows.map
      (keyTuple (restrictCols tickersDf ("ticker" :: catColumns)) ["ticker"])).Nodup := by
    show ((tickersDf.rows.map
        (fun r => ("ticker" :: catColumns).map (getCell tickersDf r))).map
          (keyTuple (restrictCols tickersDf ("ticker" :: catColumns)) ["ticker"])).Nodup
    rw [List.map_map]
    have hcomp : (keyTuple (restrictCols tickersDf ("ticker" :: catColumns)) ["ticker"])
          ∘ (fun r => ("ticker" :: catColumns).map (getCell tickersDf r))
        = fun r => [getCell tickersDf r "ticker"] := by
      funext r
      show keyTuple (restrictCols tickersDf ("ticker" :: catColumns)) ["ticker"]
          (("ticker" :: catColumns).map (getCell tickersDf r))
        = [getCell tickersDf r "ticker"]
      rw [hkey]
      rfl
    rw [hcomp,
      show (fun r => [getCell tickersDf r "ticker"])
          = (fun v => ([v] : List Val)) ∘ (fun r => getCell tickersDf r "ticker") from rfl,
      ← List.map_map]
    exact List.Nodup.map (fun a b h => by injection h) huniq
  have hrows := leftMerge_rows_of_unique_right
    ⟨["ticker"], tickers.map (fun t => [Val.str t])⟩
    (restrictCols tickersDf ("ticker" :: catColumns)) ["ticker"] hkeys
  constructor
  · show (catColumns.foldl encodeStep
        (baseMerged catColumns tickersDf tickers)).rows.length = _
    rw [foldl_encodeStep_rows_length]
    unfold baseMerged
    rw [hrows, List.length_map, List.length_map]
  · show getColumn (catColumns.foldl encodeStep
        (baseMerged catColumns tickersDf tickers)) "ticker" = _
    rw [getColumn_foldl_encodeStep_ne "ticker" catColumns
      (baseMerged catColumns tickersDf tickers) hnod.1]
    have hidx : (baseMerged catColumns tickersDf tickers).cols.findIdx?
        (fun c0 => c0 == "ticker") = some 0 := by
      rw [baseMerged_cols catColumns tickersDf tickers hnod.1]
      simp [List.findIdx?_cons]
    unfold getColumn
    rw [List.map_congr_left (fun row _ => getCell_of_findIdx? hidx row)]
    show (baseMerged catColumns tickersDf tickers).rows.map
        (fun row => row.getD 0 Val.null) = _
    unfold baseMerged
    rw [hrows, List.map_map, List.map_map]
    apply List.map_congr_left
    intro t _
    cases hf : (restrictCols tickersDf ("ticker" :: catColumns)).rows.filter
        (fun rr => decide
          (keyTuple ⟨["ticker"], tickers.map (fun t => [Val.str t])⟩ ["ticker"] [Val.str t]
            = keyTuple (restrictCols tickersDf ("ticker" :: catColumns)) ["ticker"] rr)) with
    | nil =>
      simp only [Function.comp_apply, hf]
      rfl
    | cons rr rest =>
      simp only [Function.comp_apply, hf]
      rfl

/-- C10 witness: three requested tickers, one absent from the table; one
output row per ticker, in request order. -/
theorem baseCompany_one_row_per_ticker_witness :
    (["ticker", "sector"] : List String).Nodup
  ∧ (sampleTickersDf.rows.map (fun r => getCell sampleTickersDf r "ticker")).Nodup
  ∧ (baseCompanyCalculate ["sector"] sampleTickersDf ["A", "B", "C"]).rows.length = 3
  ∧ getColumn (baseCompanyCalculate ["sector"] sampleTickersDf ["A", "B", "C"]) "ticker"
      = [Val.str "A", Val.str "B", Val.str "C"] := by
  have h := baseCompany_one_row_per_ticker ["sector"] sampleTickersDf ["A", "B", "C"]
    (by decide) (by decide)
  exact ⟨by decide, by decide, by rw [h.1]; rfl, by rw [h.2]; rfl⟩
